import Mathlib

/-!
Verification development for the `rest_hooks` event-to-delivery pipeline
(django-rest-hooks). Python strings are embedded as `List Char`; dictionaries
become association lists in insertion order; Python exceptions become
`Except` errors; falsy optional arguments (`False` / `None` defaults) become
`Option`. Each definition is a direct transcription of the corresponding
function in the repository's source.
-/

namespace RestHooks

/-- Strings of the embedded program, as lists of characters. -/
abbrev Str := List Char

/-- Helper to build an embedded string from a Lean string literal. -/
def str (s : String) : Str := s.toList

/-- Split a string at the LAST occurrence of `sep`, returning the parts
before and after it; `none` when `sep` does not occur. This is the
behaviour of Python's `s.rsplit(sep, 1)` (which yields a one-element list,
i.e. no split, exactly when `sep` is absent). -/
def splitAtLast (sep : Char) : Str → Option (Str × Str)
  | [] => none
  | c :: cs =>
    match splitAtLast sep cs with
    | some (l, r) => some (c :: l, r)
    | none => if c = sep then some ([], cs) else none

/-- Parsed form of an automatic-trigger descriptor `model.action[+]`. -/
structure AutoDescr where
  model : Str
  action : Str
  ignoreUser : Bool
deriving DecidableEq, Repr

/-- Parse an automatic descriptor the way both `get_event_actions_config`
(models.py lines 43-48) and `distill_model_event` (utils.py lines 154-157)
do: `rsplit('.', 1)` into model label and action, then `rsplit('+', 1)` on
the action; a second part from the `+` split marks "ignore user override".
Returns `none` when the descriptor has no dot, in which case the Python
tuple unpacking of `rsplit` raises `ValueError`. -/
def parseAuto (d : Str) : Option AutoDescr :=
  match splitAtLast '.' d with
  | none => none
  | some (m, a0) =>
    match splitAtLast '+' a0 with
    | some (a, _) => some ⟨m, a, true⟩
    | none => some ⟨m, a0, false⟩

/-- The `settings.HOOK_EVENTS` dictionary: event name to optional automatic
descriptor, in insertion order. `none` embeds a `None` value; `some []`
embeds an empty (falsy) string. -/
abbrev HookEvents := List (Str × Option Str)

/-- Key lookup in `HOOK_EVENTS` (first entry wins, as in a dict). -/
def lookupEvent : HookEvents → Str → Option (Option Str)
  | [], _ => none
  | (k, v) :: rest, n => if k = n then some v else lookupEvent rest n

/-- The derived index `_HOOK_EVENT_ACTIONS_CONFIG`, flattened: each entry
maps a `(model_label, action)` key to `(event_name, ignore_user_override)`.
The nested dict-of-dicts in models.py keys first on the model label and
then on the action, which is the same keying. -/
abbrev EventActionsConfig := List ((Str × Str) × (Str × Bool))

/-- Lookup of `(model, action)` in the derived index; this embeds
`config.get(model, {}).get(action, ...)` in utils.py line 170 and the
`action in model_config` duplicate test in models.py line 51. -/
def lookupMA : EventActionsConfig → Str → Str → Option (Str × Bool)
  | [], _, _ => none
  | ((m', a'), v) :: rest, m, a =>
    if m' = m ∧ a' = a then some v else lookupMA rest m a

/-- Errors raised by the embedded pipeline. `valueError` is Python's
`ValueError` from unpacking a dot-less descriptor; `improperlyConfigured`
is Django's `ImproperlyConfigured`; `typeError` is the `TypeError` in
`distill_model_event`; `unknownEvent` and `noUserProperty` are the two
`Exception`s raised by `find_and_fire_hook`; `attributeError` is Python's
`AttributeError`. -/
inductive HookError where
  | typeError
  | unknownEvent
  | noUserProperty
  | improperlyConfigured
  | valueError
  | attributeError
deriving DecidableEq, Repr

/-- Loop body accumulation of `get_event_actions_config` (models.py lines
40-56): iterate over the `HOOK_EVENTS` items, skip falsy descriptors, parse
the rest, reject a duplicate `(model, action)` key with
`ImproperlyConfigured`, and append the new index entry. -/
def buildConfigAux : HookEvents → EventActionsConfig → Except HookError EventActionsConfig
  | [], acc => .ok acc
  | (ev, auto) :: rest, acc =>
    match auto with
    | none => buildConfigAux rest acc
    | some d =>
      if d = [] then buildConfigAux rest acc
      else
        match parseAuto d with
        | none => .error .valueError
        | some ad =>
          if (lookupMA acc ad.model ad.action).isSome then .error .improperlyConfigured
          else buildConfigAux rest (acc ++ [((ad.model, ad.action), (ev, ad.ignoreUser))])

/-- `get_event_actions_config` (models.py lines 36-57): build the derived
index from scratch. -/
def get_event_actions_config (he : HookEvents) : Except HookError EventActionsConfig :=
  buildConfigAux he []

/-- The `(model, action)` pairs of the effective (truthy, parseable)
automatic descriptors of a configuration, in order. -/
def autoPairs : HookEvents → List (Str × Str)
  | [] => []
  | (_, none) :: rest => autoPairs rest
  | (_, some d) :: rest =>
    if d = [] then autoPairs rest
    else
      match parseAuto d with
      | none => autoPairs rest
      | some ad => (ad.model, ad.action) :: autoPairs rest

/-- Well-formedness of a configuration: every truthy automatic descriptor
contains a dot, i.e. has the documented `model_identifier.action[+]` shape,
so that its `rsplit('.', 1)` unpacking succeeds. -/
def wfEvents : HookEvents → Bool
  | [] => true
  | (_, none) :: rest => wfEvents rest
  | (_, some d) :: rest => (d.isEmpty || (parseAuto d).isSome) && wfEvents rest

/-- Keys of the derived index. -/
def keysOf (cfg : EventActionsConfig) : List (Str × Str) := cfg.map Prod.fst

/-- A stored subscription (`AbstractHook` / `Hook` row in models.py): id,
owning user, event name, target URL. Timestamps play no role in the
verified behaviour and are omitted. -/
structure Hook where
  id : Nat
  user : Nat
  event : Str
  target : Str
deriving DecidableEq, Repr

/-- The subscription registry: the rows the `HookModel.objects` manager
filters over. -/
abbrev Registry := List Hook

/-- Result of `AbstractHook.dict` (models.py lines 90-95). -/
structure HookDict where
  id : Nat
  event : Str
  target : Str
deriving DecidableEq, Repr

/-- `AbstractHook.dict`: `{ id, event, target }`. -/
def Hook.dict (h : Hook) : HookDict := ⟨h.id, h.event, h.target⟩

/-- A JSON-serializable payload. `value` stands for an opaque structure
returned by a custom serializer; `envelope` is the default
`{ hook: ..., data: ... }` wrapper whose data is the mapping of the
instance's persisted fields produced by Django's built-in serializer. -/
inductive Payload where
  | value (tag : Nat)
  | envelope (hk : HookDict) (data : List (Str × Str))
deriving Repr

/-- A triggering instance. `userAttr` is the value of its `user` attribute
when the attribute exists; `isUser` embeds `isinstance(instance, User)`
with `selfId` the instance's own identity as a user; `serializeHookFn`
embeds a callable `serialize_hook` attribute when present; `fields` are the
persisted fields Django's built-in serializer reflects over. -/
structure TriggerInstance where
  userAttr : Option Nat
  isUser : Bool
  selfId : Nat
  serializeHookFn : Option (Hook → Payload)
  fields : List (Str × Str)

/-- The Django settings consulted by `AbstractHook.serialize_hook`: an
optional globally configured `HOOK_SERIALIZER`. -/
structure Settings where
  hookSerializer : Option (TriggerInstance → Hook → Payload)

/-- `AbstractHook.serialize_hook` (models.py lines 97-120): first a
callable `serialize_hook` on the instance, then the configured
`HOOK_SERIALIZER` called with the instance and the hook, else the default
envelope over Django's built-in serialization of the instance. -/
def serialize_hook (stg : Settings) (self : Hook) (inst : TriggerInstance) : Payload :=
  match inst.serializeHookFn with
  | some f => f self
  | none =>
    match stg.hookSerializer with
    | some g => g inst self
    | none => .envelope self.dict inst.fields

/-- The `user_override` argument of `find_and_fire_hook` and
`distill_model_event`: Python `None` (the default), the sentinel `False`
("ignore the user"), or an explicit (truthy) user. -/
inductive UserOverride where
  | noOverride
  | ignoreUser
  | explicitUser (u : Nat)
deriving DecidableEq, Repr

/-- The `filters` dictionary of `find_and_fire_hook`: always the event,
plus a user constraint unless the override was the `False` sentinel. -/
structure Filters where
  event : Str
  user : Option Nat
deriving DecidableEq, Repr

/-- Owner-filter resolution of `find_and_fire_hook` (utils.py lines
92-105): with the `False` sentinel no user filter is added; an explicit
override is filtered on; otherwise the instance's `user` attribute is
used, or the instance itself when it is a `User`, and an `Exception`
("... has no user property") is raised when neither applies. -/
def resolveFilters (eventName : Str) (inst : TriggerInstance) (uo : UserOverride) :
    Except HookError Filters :=
  match uo with
  | .ignoreUser => .ok ⟨eventName, none⟩
  | .explicitUser u => .ok ⟨eventName, some u⟩
  | .noOverride =>
    match inst.userAttr with
    | some u => .ok ⟨eventName, some u⟩
    | none =>
      if inst.isUser then .ok ⟨eventName, some inst.selfId⟩
      else .error .noUserProperty

/-- Whether a stored hook matches the filters, as
`HookModel.objects.filter(**filters)` does. -/
def hookMatches (f : Filters) (h : Hook) : Bool :=
  (h.event == f.event) &&
    (match f.user with
     | none => true
     | some u => h.user == u)

/-- `find_and_fire_hook` (utils.py lines 76-116) up to its delivery loop:
reject an event name that is not a key of `HOOK_EVENTS`, resolve the owner
filters, and select the matching hooks. The returned list is the sequence
of hooks the final `for` loop iterates over. -/
def find_and_fire_hook (he : HookEvents) (reg : Registry) (eventName : Str)
    (inst : TriggerInstance) (uo : UserOverride) : Except HookError (List Hook) :=
  match lookupEvent he eventName with
  | none => .error .unknownEvent
  | some _ =>
    match resolveFilters eventName inst uo with
    | .error e => .error e
    | .ok f => .ok (reg.filter (hookMatches f))

/-- The delivery loop of `find_and_fire_hook` (utils.py lines 115-116):
`for hook in hooks: hook.deliver_hook(instance, ...)`, with no exception
handling around the body. `deliver` abstracts `deliver_hook` (building and
sending one payload), which may raise. Returns the hooks on which a
delivery attempt was actually started, and whether an exception
propagated (aborting the loop). -/
def runDeliveries (deliver : Hook → Except Unit Unit) : List Hook → List Hook × Bool
  | [] => ([], false)
  | h :: t =>
    match deliver h with
    | .ok _ =>
      let p := runDeliveries deliver t
      (h :: p.1, p.2)
    | .error _ => ([h], true)

/-- `find_and_fire_hook` including its delivery loop. -/
def fire_and_deliver (he : HookEvents) (reg : Registry) (eventName : Str)
    (inst : TriggerInstance) (uo : UserOverride) (deliver : Hook → Except Unit Unit) :
    Except HookError (List Hook × Bool) :=
  match find_and_fire_hook he reg eventName inst uo with
  | .error e => .error e
  | .ok hooks => .ok (runDeliveries deliver hooks)

/-- The call `distill_model_event` hands to the finder
(utils.py line 179): the resolved event name and the (possibly replaced)
user override. -/
structure FinderCall where
  eventName : Str
  userOverride : UserOverride
deriving DecidableEq, Repr

/-- `distill_model_event` (utils.py lines 119-179), up to the finder call.
The leading guard `if event_name is False and (model is False or action is
False): raise TypeError` is rendered as the match structure: an absent
event name with an absent model or action is the `TypeError`; an absent
event name with both present takes the automatic path through the derived
index; a present event name takes the explicit path, where a configured
truthy descriptor is checked for consistency against any caller-supplied
model/action (a mismatch silently cancels the firing) and a `+` suffix
forces the ignore-user override. Returns `none` when no finder call is
made (silent no-op), `some call` when the finder is invoked. -/
def distill_model_event (he : HookEvents) (model action : Option Str)
    (uo : UserOverride) (eventName : Option Str) (trust : Bool) :
    Except HookError (Option FinderCall) :=
  match eventName, model, action with
  | none, some m, some a =>
    match get_event_actions_config he with
    | .error e => .error e
    | .ok cfg =>
      match lookupMA cfg m a with
      | none => .ok none
      | some (en, ignore) =>
        .ok (some ⟨en, if ignore then .ignoreUser else uo⟩)
  | none, _, _ => .error .typeError
  | some en, _, _ =>
    if trust then .ok (some ⟨en, uo⟩)
    else
      match lookupEvent he en with
      | none => .ok (some ⟨en, uo⟩)
      | some none => .ok (some ⟨en, uo⟩)
      | some (some d) =>
        if d = [] then .ok (some ⟨en, uo⟩)
        else
          match parseAuto d with
          | none => .error .valueError
          | some ad =>
            let m := model.getD ad.model
            let a := action.getD ad.action
            let uo' := if ad.ignoreUser then UserOverride.ignoreUser else uo
            if m = ad.model ∧ a = ad.action then .ok (some ⟨en, uo'⟩)
            else .ok none

/-- `distill_model_event` composed with the default finder
`find_and_fire_hook` (utils.py lines 174-179 with no custom
`HOOK_FINDER`). `ok none` is the silent no-op; `ok (some hooks)` lists the
selected subscriptions. -/
def distill_and_fire (he : HookEvents) (reg : Registry) (inst : TriggerInstance)
    (model action : Option Str) (uo : UserOverride) (eventName : Option Str)
    (trust : Bool) : Except HookError (Option (List Hook)) :=
  match distill_model_event he model action uo eventName trust with
  | .error e => .error e
  | .ok none => .ok none
  | .ok (some call) =>
    match find_and_fire_hook he reg call.eventName inst call.userOverride with
    | .error e => .error e
    | .ok hooks => .ok (some hooks)

/-- A pending delivery of the threaded dispatcher (client.py): the HTTP
method with its target URL and serialized body. -/
structure Item where
  method : Str
  target : Str
  body : Str
deriving DecidableEq, Repr

/-- The mutable state of `Client` (client.py): the work deque and the
`total_sent` counter of completed deliveries. -/
structure ClientState where
  queue : List Item
  total_sent : Nat
deriving DecidableEq, Repr

/-- `Client.enqueue` (client.py lines 28-30): append the request to the
right end of the deque. -/
def Client.enqueue (st : ClientState) (it : Item) : ClientState :=
  ⟨st.queue ++ [it], st.total_sent⟩

/-- The `while self.queue` loop of `Client.sync_flush` (client.py lines
53-58): `deque.pop()` removes the rightmost element (the last-enqueued
item), the request is issued and `total_sent` incremented, until the
queue is empty. The loop is rendered with a fuel bound on the number of
iterations (each iteration pops one item, so the initial queue length
suffices). Returns the requests in the order they are issued, and the
final `total_sent`. -/
def syncFlushGo : Nat → List Item → Nat → List Item × Nat
  | 0, _, sent => ([], sent)
  | fuel + 1, q, sent =>
    match q.getLast? with
    | none => ([], sent)
    | some it =>
      let p := syncFlushGo fuel q.dropLast (sent + 1)
      (it :: p.1, p.2)

/-- `Client.sync_flush`: drain the queue, issuing one HTTP request per
popped item and incrementing `total_sent` after each. -/
def sync_flush (st : ClientState) : List Item × ClientState :=
  let p := syncFlushGo st.queue.length st.queue st.total_sent
  (p.1, ⟨[], p.2⟩)

/-- Attribute names defined on the hook model class that
`DeliverHook.run` could look up a manager under: Django model classes
expose their default manager as `objects`. -/
def hookModelAttrs : List Str := [str "objects"]

/-- The attribute name `DeliverHook.run` actually accesses on the model
class (tasks.py line 27: `HookModel.object.get(id=hook_id)`). -/
def accessedManagerAttr : Str := str "object"

/-- `DeliverHook.run` (tasks.py lines 12-30) after the POST has returned
`status`: when the status is 410 and a hook id was given, the code looks
up the manager attribute on the model class and deletes the hook; the
attribute access raises `AttributeError` when the name is not defined on
the class. Returns the registry after the task. -/
def deliver_hook_run (status : Nat) (hookId : Option Nat) (reg : Registry) :
    Except HookError Registry :=
  match hookId with
  | some hid =>
    if status = 410 then
      if hookModelAttrs.contains accessedManagerAttr then
        .ok (reg.filter (fun h => !(h.id == hid)))
      else .error .attributeError
    else .ok reg
  | none => .ok reg

/-! ## Helper lemmas -/

theorem splitAtLast_eq_none (sep : Char) (l : Str) (h : sep ∉ l) :
    splitAtLast sep l = none := by
  induction l with
  | nil => rfl
  | cons c cs ih =>
    have hc : ¬ c = sep := fun e => h (e ▸ List.mem_cons_self c cs)
    have hcs : sep ∉ cs := fun m => h (List.mem_cons_of_mem c m)
    simp [splitAtLast, ih hcs, hc]

theorem splitAtLast_append (sep : Char) (l r : Str) (h : sep ∉ r) :
    splitAtLast sep (l ++ sep :: r) = some (l, r) := by
  induction l with
  | nil => simp [splitAtLast, splitAtLast_eq_none sep r h]
  | cons c cs ih => simp [splitAtLast, ih]

theorem parseAuto_shape (m a : Str) (plus : Bool) (hd : ('.' : Char) ∉ a)
    (hp : ('+' : Char) ∉ a) :
    parseAuto (m ++ '.' :: (if plus then a ++ ['+'] else a)) = some ⟨m, a, plus⟩ := by
  cases plus with
  | false =>
    simp [parseAuto, splitAtLast_append '.' m a hd, splitAtLast_eq_none '+' a hp]
  | true =>
    have hd' : ('.' : Char) ∉ a ++ ['+'] := by
      intro hm
      rcases List.mem_append.mp hm with h1 | h1
      · exact hd h1
      · simp at h1
    have h2 : splitAtLast '+' (a ++ '+' :: []) = some (a, []) :=
      splitAtLast_append '+' a [] (by simp)
    simp [parseAuto, splitAtLast_append '.' m (a ++ ['+']) hd', h2]

theorem lookupMA_isSome_iff (cfg : EventActionsConfig) (m a : Str) :
    (lookupMA cfg m a).isSome ↔ (m, a) ∈ keysOf cfg := by
  induction cfg with
  | nil => simp [lookupMA, keysOf]
  | cons p rest ih =>
    obtain ⟨⟨m', a'⟩, v⟩ := p
    by_cases h : m' = m ∧ a' = a
    · obtain ⟨h1, h2⟩ := h
      subst h1; subst h2
      simp [lookupMA, keysOf]
    · have hne : ¬ (m, a) = (m', a') := by
        intro e
        exact h ⟨(Prod.mk.injEq .. ▸ e).1.symm, (Prod.mk.injEq .. ▸ e).2.symm⟩
      simp only [lookupMA, if_neg h, keysOf, List.map_cons, List.mem_cons]
      rw [ih]
      simp [keysOf, hne]

theorem lookupMA_append_left {cfg : EventActionsConfig} {m a : Str} {v : Str × Bool}
    (h : lookupMA cfg m a = some v) (l : EventActionsConfig) :
    lookupMA (cfg ++ l) m a = some v := by
  induction cfg with
  | nil => simp [lookupMA] at h
  | cons p rest ih =>
    obtain ⟨⟨m', a'⟩, w⟩ := p
    by_cases hk : m' = m ∧ a' = a
    · simp only [lookupMA, if_pos hk] at h
      simp only [List.cons_append, lookupMA, if_pos hk]
      exact h
    · simp only [lookupMA, if_neg hk] at h
      simp only [List.cons_append, lookupMA, if_neg hk]
      exact ih h

theorem lookupMA_append_self {cfg : EventActionsConfig} {m a : Str}
    (h : lookupMA cfg m a = none) (v : Str × Bool) :
    lookupMA (cfg ++ [((m, a), v)]) m a = some v := by
  induction cfg with
  | nil => simp [lookupMA]
  | cons p rest ih =>
    obtain ⟨⟨m', a'⟩, w⟩ := p
    by_cases hk : m' = m ∧ a' = a
    · simp [lookupMA, if_pos hk] at h
    · simp only [lookupMA, if_neg hk] at h
      simp only [List.cons_append, lookupMA, if_neg hk]
      exact ih h

theorem lookupMA_mem {cfg : EventActionsConfig} {m a : Str} {v : Str × Bool}
    (h : lookupMA cfg m a = some v) : ((m, a), v) ∈ cfg := by
  induction cfg with
  | nil => simp [lookupMA] at h
  | cons p rest ih =>
    obtain ⟨⟨m', a'⟩, w⟩ := p
    by_cases hk : m' = m ∧ a' = a
    · obtain ⟨h1, h2⟩ := hk
      subst h1; subst h2
      simp only [lookupMA, and_self, if_true, Option.some.injEq] at h
      subst h
      exact List.mem_cons_self _ _
    · simp only [lookupMA, if_neg hk] at h
      exact List.mem_cons_of_mem _ (ih h)

theorem lookupEvent_isSome_of_mem {he : HookEvents} {k : Str} {v : Option Str}
    (h : (k, v) ∈ he) : (lookupEvent he k).isSome := by
  induction he with
  | nil => simp at h
  | cons p rest ih =>
    obtain ⟨k', v'⟩ := p
    by_cases hk : k' = k
    · simp [lookupEvent, hk]
    · rcases List.mem_cons.mp h with heq | htail
      · exact absurd (congrArg Prod.fst heq).symm hk
      · simp only [lookupEvent, if_neg hk]
        exact ih htail

theorem buildAux_mono {he : HookEvents} {acc cfg : EventActionsConfig}
    (hb : buildConfigAux he acc = .ok cfg) {m a : Str} {v : Str × Bool}
    (h : lookupMA acc m a = some v) : lookupMA cfg m a = some v := by
  induction he generalizing acc with
  | nil =>
    simp only [buildConfigAux, Except.ok.injEq] at hb
    exact hb ▸ h
  | cons p rest ih =>
    obtain ⟨ev, auto⟩ := p
    cases auto with
    | none => exact ih (by simpa [buildConfigAux] using hb) h
    | some d =>
      by_cases hd : d = []
      · exact ih (by simpa [buildConfigAux, hd] using hb) h
      · cases hp : parseAuto d with
        | none => simp [buildConfigAux, hd, hp] at hb
        | some ad =>
          by_cases hl : (lookupMA acc ad.model ad.action).isSome
          · simp [buildConfigAux, hd, hp, hl] at hb
          · have hb' : buildConfigAux rest
                (acc ++ [((ad.model, ad.action), (ev, ad.ignoreUser))]) = .ok cfg := by
              simpa [buildConfigAux, hd, hp, hl] using hb
            exact ih hb' (lookupMA_append_left h _)

theorem buildAux_roundtrip {he : HookEvents} {acc cfg : EventActionsConfig}
    {E d : Str} {ad : AutoDescr}
    (hb : buildConfigAux he acc = .ok cfg)
    (hmem : (E, some d) ∈ he) (hd : ¬ d = []) (hp : parseAuto d = some ad) :
    lookupMA cfg ad.model ad.action = some (E, ad.ignoreUser) := by
  induction he generalizing acc with
  | nil => simp at hmem
  | cons p rest ih =>
    rcases List.mem_cons.mp hmem with heq | htail
    · subst heq
      by_cases hl : (lookupMA acc ad.model ad.action).isSome
      · simp [buildConfigAux, hd, hp, hl] at hb
      · have hb' : buildConfigAux rest
            (acc ++ [((ad.model, ad.action), (E, ad.ignoreUser))]) = .ok cfg := by
          simpa [buildConfigAux, hd, hp, hl] using hb
        have hnone : lookupMA acc ad.model ad.action = none :=
          Option.not_isSome_iff_eq_none.mp hl
        exact buildAux_mono hb' (lookupMA_append_self hnone _)
    · obtain ⟨ev, auto⟩ := p
      cases auto with
      | none => exact ih (by simpa [buildConfigAux] using hb) htail
      | some d' =>
        by_cases hd' : d' = []
        · exact ih (by simpa [buildConfigAux, hd'] using hb) htail
        · cases hp' : parseAuto d' with
          | none => simp [buildConfigAux, hd', hp'] at hb
          | some ad' =>
            by_cases hl : (lookupMA acc ad'.model ad'.action).isSome
            · simp [buildConfigAux, hd', hp', hl] at hb
            · have hb' : buildConfigAux rest
                  (acc ++ [((ad'.model, ad'.action), (ev, ad'.ignoreUser))]) = .ok cfg := by
                simpa [buildConfigAux, hd', hp', hl] using hb
              exact ih hb' htail

theorem buildAux_src {he : HookEvents} {acc cfg : EventActionsConfig}
    (hb : buildConfigAux he acc = .ok cfg) :
    ∀ p ∈ cfg, p ∈ acc ∨ ∃ v, (p.2.1, v) ∈ he := by
  induction he generalizing acc with
  | nil =>
    simp only [buildConfigAux, Except.ok.injEq] at hb
    exact fun p hp => Or.inl (hb ▸ hp)
  | cons q rest ih =>
    intro p hp
    obtain ⟨ev, auto⟩ := q
    have step : ∀ (acc' : EventActionsConfig), buildConfigAux rest acc' = .ok cfg →
        p ∈ acc' ∨ ∃ v, (p.2.1, v) ∈ (ev, auto) :: rest := by
      intro acc' hb'
      rcases ih hb' p hp with hin | ⟨v, hv⟩
      · exact Or.inl hin
      · exact Or.inr ⟨v, List.mem_cons_of_mem _ hv⟩
    cases auto with
    | none =>
      rcases step acc (by simpa [buildConfigAux] using hb) with hin | hev
      · exact Or.inl hin
      · exact Or.inr hev
    | some d =>
      by_cases hd : d = []
      · rcases step acc (by simpa [buildConfigAux, hd] using hb) with hin | hev
        · exact Or.inl hin
        · exact Or.inr hev
      · cases hp' : parseAuto d with
        | none => simp [buildConfigAux, hd, hp'] at hb
        | some ad =>
          by_cases hl : (lookupMA acc ad.model ad.action).isSome
          · simp [buildConfigAux, hd, hp', hl] at hb
          · have hb' : buildConfigAux rest
                (acc ++ [((ad.model, ad.action), (ev, ad.ignoreUser))]) = .ok cfg := by
              simpa [buildConfigAux, hd, hp', hl] using hb
            rcases step _ hb' with hin | hev
            · rcases List.mem_append.mp hin with h1 | h1
              · exact Or.inl h1
              · have hpe : p = ((ad.model, ad.action), (ev, ad.ignoreUser)) := by
                  simpa using h1
                refine Or.inr ⟨some d, ?_⟩
                rw [hpe]
                exact List.mem_cons_self _ _
            · exact Or.inr hev

theorem buildAux_ok_of_nodup {he : HookEvents} {acc : EventActionsConfig}
    (hwf : wfEvents he = true)
    (hnd : (keysOf acc ++ autoPairs he).Nodup) :
    ∃ cfg, buildConfigAux he acc = .ok cfg := by
  induction he generalizing acc with
  | nil => exact ⟨acc, rfl⟩
  | cons p rest ih =>
    obtain ⟨ev, auto⟩ := p
    cases auto with
    | none =>
      exact (ih (by simpa [wfEvents] using hwf) (by simpa [autoPairs] using hnd)).imp
        fun cfg h => by simpa [buildConfigAux] using h
    | some d =>
      have hwf1 : (d.isEmpty || (parseAuto d).isSome) = true ∧ wfEvents rest = true := by
        simpa [wfEvents, Bool.and_eq_true] using hwf
      by_cases hd : d = []
      · exact (ih hwf1.2 (by simpa [autoPairs, hd] using hnd)).imp
          fun cfg h => by simpa [buildConfigAux, hd] using h
      · have hps : (parseAuto d).isSome := by
          rcases Bool.or_eq_true_iff.mp hwf1.1 with h1 | h1
          · exact absurd (List.isEmpty_iff.mp h1) hd
          · exact h1
        obtain ⟨ad, hp⟩ := Option.isSome_iff_exists.mp hps
        have hpairs : autoPairs ((ev, some d) :: rest)
            = (ad.model, ad.action) :: autoPairs rest := by
          simp [autoPairs, hd, hp]
        rw [hpairs] at hnd
        have hnd' := List.nodup_middle.mp hnd
        have hnotmem : (ad.model, ad.action) ∉ keysOf acc ++ autoPairs rest :=
          (List.nodup_cons.mp hnd').1
        have hnotacc : (ad.model, ad.action) ∉ keysOf acc :=
          fun h => hnotmem (List.mem_append.mpr (Or.inl h))
        have hl : ¬ (lookupMA acc ad.model ad.action).isSome := by
          rw [lookupMA_isSome_iff]; exact hnotacc
        have hkeys' : keysOf (acc ++ [((ad.model, ad.action), (ev, ad.ignoreUser))])
            = keysOf acc ++ [(ad.model, ad.action)] := by
          simp [keysOf]
        have hnd2 : (keysOf (acc ++ [((ad.model, ad.action), (ev, ad.ignoreUser))])
            ++ autoPairs rest).Nodup := by
          rw [hkeys', List.append_assoc]
          have : keysOf acc ++ [(ad.model, ad.action)] ++ autoPairs rest
              = keysOf acc ++ (ad.model, ad.action) :: autoPairs rest := by
            simp
          rw [List.append_assoc] at this
          rw [this]
          exact hnd
        exact (ih hwf1.2 hnd2).imp
          fun cfg h => by simpa [buildConfigAux, hd, hp, hl] using h

theorem buildAux_err_of_dup {he : HookEvents} {acc : EventActionsConfig}
    (hwf : wfEvents he = true)
    (hka : (keysOf acc).Nodup)
    (hnd : ¬ (keysOf acc ++ autoPairs he).Nodup) :
    buildConfigAux he acc = .error .improperlyConfigured := by
  induction he generalizing acc with
  | nil =>
    exact absurd (by simpa [autoPairs] using hka) hnd
  | cons p rest ih =>
    obtain ⟨ev, auto⟩ := p
    cases auto with
    | none =>
      have := ih (by simpa [wfEvents] using hwf) hka (by simpa [autoPairs] using hnd)
      simpa [buildConfigAux] using this
    | some d =>
      have hwf1 : (d.isEmpty || (parseAuto d).isSome) = true ∧ wfEvents rest = true := by
        simpa [wfEvents, Bool.and_eq_true] using hwf
      by_cases hd : d = []
      · have := ih hwf1.2 hka (by simpa [autoPairs, hd] using hnd)
        simpa [buildConfigAux, hd] using this
      · have hps : (parseAuto d).isSome := by
          rcases Bool.or_eq_true_iff.mp hwf1.1 with h1 | h1
          · exact absurd (List.isEmpty_iff.mp h1) hd
          · exact h1
        obtain ⟨ad, hp⟩ := Option.isSome_iff_exists.mp hps
        have hpairs : autoPairs ((ev, some d) :: rest)
            = (ad.model, ad.action) :: autoPairs rest := by
          simp [autoPairs, hd, hp]
        rw [hpairs] at hnd
        by_cases hl : (lookupMA acc ad.model ad.action).isSome
        · simp [buildConfigAux, hd, hp, hl]
        · have hnotacc : (ad.model, ad.action) ∉ keysOf acc := by
            rw [← lookupMA_isSome_iff]; exact hl
          have hkeys' : keysOf (acc ++ [((ad.model, ad.action), (ev, ad.ignoreUser))])
              = keysOf acc ++ [(ad.model, ad.action)] := by
            simp [keysOf]
          have hka' : (keysOf (acc ++ [((ad.model, ad.action), (ev, ad.ignoreUser))])).Nodup := by
            rw [hkeys']
            exact List.Nodup.append hka (List.nodup_singleton _)
              (by simpa [List.disjoint_singleton] using hnotacc)
          have hnd' : ¬ (keysOf (acc ++ [((ad.model, ad.action), (ev, ad.ignoreUser))])
              ++ autoPairs rest).Nodup := by
            rw [hkeys', List.append_assoc]
            intro hcon
            exact hnd (by simpa using hcon)
          have := ih hwf1.2 hka' hnd'
          simpa [buildConfigAux, hd, hp, hl] using this

theorem buildAux_no_typeError {he : HookEvents} {acc : EventActionsConfig} :
    buildConfigAux he acc ≠ .error .typeError := by
  induction he generalizing acc with
  | nil => simp [buildConfigAux]
  | cons p rest ih =>
    obtain ⟨ev, auto⟩ := p
    cases auto with
    | none => simpa [buildConfigAux] using ih
    | some d =>
      by_cases hd : d = []
      · simpa [buildConfigAux, hd] using ih
      · cases hp : parseAuto d with
        | none => simp [buildConfigAux, hd, hp]
        | some ad =>
          by_cases hl : (lookupMA acc ad.model ad.action).isSome
          · simp [buildConfigAux, hd, hp, hl]
          · simpa [buildConfigAux, hd, hp, hl] using ih

theorem mem_filter_user (reg : Registry) (e : Str) (u : Nat) (h : Hook) :
    h ∈ reg.filter (hookMatches ⟨e, some u⟩) ↔ h ∈ reg ∧ h.event = e ∧ h.user = u := by
  simp [List.mem_filter, hookMatches, and_assoc]

theorem mem_filter_all (reg : Registry) (e : Str) (h : Hook) :
    h ∈ reg.filter (hookMatches ⟨e, none⟩) ↔ h ∈ reg ∧ h.event = e := by
  simp [List.mem_filter, hookMatches]

theorem syncFlushGo_spec (q : List Item) :
    ∀ fuel sent, q.length ≤ fuel →
      syncFlushGo fuel q sent = (q.reverse, sent + q.length) := by
  induction q using List.reverseRecOn with
  | nil =>
    intro fuel sent _
    cases fuel <;> simp [syncFlushGo]
  | append_singleton xs x ih =>
    intro fuel sent hf
    cases fuel with
    | zero => simp at hf
    | succ f =>
      have hf' : xs.length ≤ f := by simpa using hf
      have hrec := ih f (sent + 1) hf'
      simp only [syncFlushGo, List.getLast?_concat, List.dropLast_concat, hrec]
      simp only [List.reverse_append, List.reverse_singleton, List.singleton_append,
        List.length_append, List.length_singleton, Prod.mk.injEq, true_and]
      omega

theorem enqueue_foldl (items : List Item) (st : ClientState) :
    items.foldl Client.enqueue st = ⟨st.queue ++ items, st.total_sent⟩ := by
  induction items generalizing st with
  | nil => simp
  | cons it rest ih =>
    simp only [List.foldl_cons, Client.enqueue, ih]
    simp

/-! ## Claim theorems -/

/-- Claim C1, counterexample. The claim states that an exception raised
while building or delivering one subscription's payload does not prevent
the delivery attempts for the remaining matched subscriptions. On the code
this is false: the `for hook in hooks` loop of `find_and_fire_hook` has no
exception handling, so the loop aborts at the failing delivery. Here the
event matches two subscriptions, delivery to the first raises, and the
second is never attempted even though it was selected. -/
theorem failure_not_isolated_cex :
    find_and_fire_hook [(str "e", none)]
        [⟨1, 10, str "e", str "t1"⟩, ⟨2, 10, str "e", str "t2"⟩]
        (str "e") ⟨some 10, false, 0, none, []⟩ .ignoreUser
      = .ok [⟨1, 10, str "e", str "t1"⟩, ⟨2, 10, str "e", str "t2"⟩] ∧
    fire_and_deliver [(str "e", none)]
        [⟨1, 10, str "e", str "t1"⟩, ⟨2, 10, str "e", str "t2"⟩]
        (str "e") ⟨some 10, false, 0, none, []⟩ .ignoreUser
        (fun h => if h.id == 1 then .error () else .ok ())
      = .ok ([⟨1, 10, str "e", str "t1"⟩], true) ∧
    (⟨2, 10, str "e", str "t2"⟩ : Hook) ∉ [(⟨1, 10, str "e", str "t1"⟩ : Hook)] := by
  refine ⟨rfl, rfl, by decide⟩

/-- Claim C1, amended: per-subscription failures are NOT isolated. The
delivery loop of `find_and_fire_hook` attempts deliveries sequentially in
selection order and the first exception raised while building or
delivering a payload aborts the loop: the subscriptions before the failing
one (and the failing one itself) are attempted, the subscriptions after it
are not, and the exception propagates. -/
theorem deliveries_abort_at_first_failure (deliver : Hook → Except Unit Unit)
    (l1 l2 : List Hook) (h : Hook)
    (hok : ∀ x ∈ l1, deliver x = .ok ())
    (hfail : deliver h = .error ()) :
    runDeliveries deliver (l1 ++ h :: l2) = (l1 ++ [h], true) := by
  induction l1 with
  | nil => simp [runDeliveries, hfail]
  | cons x xs ih =>
    have hx := hok x (List.mem_cons_self x xs)
    simp [runDeliveries, hx, ih (fun y hy => hok y (List.mem_cons_of_mem x hy))]

/-- Witness for `deliveries_abort_at_first_failure` at a concrete
delivery function and hook lists. -/
theorem deliveries_abort_at_first_failure_witness :
    (∀ x ∈ ([⟨3, 0, str "e", str "t"⟩] : List Hook),
      (if x.id == 1 then (Except.error () : Except Unit Unit) else .ok ()) = .ok ()) ∧
    runDeliveries (fun h => if h.id == 1 then .error () else .ok ())
        ([⟨3, 0, str "e", str "t"⟩] ++ ⟨1, 0, str "e", str "t"⟩ :: [⟨2, 0, str "e", str "t"⟩])
      = ([⟨3, 0, str "e", str "t"⟩] ++ [⟨1, 0, str "e", str "t"⟩], true) :=
  ⟨by
    intro x hx
    rw [List.mem_singleton] at hx
    subst hx
    rfl,
   deliveries_abort_at_first_failure (fun h => if h.id == 1 then .error () else .ok ())
     [⟨3, 0, str "e", str "t"⟩] [⟨2, 0, str "e", str "t"⟩] ⟨1, 0, str "e", str "t"⟩
     (by
       intro x hx
       rw [List.mem_singleton] at hx
       subst hx
       rfl)
     rfl⟩

/-- Claim C3: owner selection in `find_and_fire_hook`. With a configured
event name: an explicit owner override selects only that owner's
subscriptions for the event; an absent override derives the owner from the
instance's `user` attribute, or from the instance itself when it is a
principal, and raises when neither applies; the ignore-owner sentinel
selects all subscriptions for the event regardless of owner. -/
theorem find_and_fire_owner_selection (he : HookEvents) (reg : Registry)
    (en : Str) (inst : TriggerInstance)
    (hen : (lookupEvent he en).isSome) :
    (∀ u, ∃ hooks, find_and_fire_hook he reg en inst (.explicitUser u) = .ok hooks ∧
        ∀ h, h ∈ hooks ↔ h ∈ reg ∧ h.event = en ∧ h.user = u) ∧
    (∀ u, inst.userAttr = some u →
      ∃ hooks, find_and_fire_hook he reg en inst .noOverride = .ok hooks ∧
        ∀ h, h ∈ hooks ↔ h ∈ reg ∧ h.event = en ∧ h.user = u) ∧
    (inst.userAttr = none → inst.isUser = true →
      ∃ hooks, find_and_fire_hook he reg en inst .noOverride = .ok hooks ∧
        ∀ h, h ∈ hooks ↔ h ∈ reg ∧ h.event = en ∧ h.user = inst.selfId) ∧
    (inst.userAttr = none → inst.isUser = false →
      find_and_fire_hook he reg en inst .noOverride = .error .noUserProperty) ∧
    (∃ hooks, find_and_fire_hook he reg en inst .ignoreUser = .ok hooks ∧
        ∀ h, h ∈ hooks ↔ h ∈ reg ∧ h.event = en) := by
  obtain ⟨auto, hauto⟩ := Option.isSome_iff_exists.mp hen
  refine ⟨?_, ?_, ?_, ?_, ?_⟩
  · intro u
    refine ⟨reg.filter (hookMatches ⟨en, some u⟩), ?_, fun h => mem_filter_user reg en u h⟩
    simp [find_and_fire_hook, hauto, resolveFilters]
  · intro u hu
    refine ⟨reg.filter (hookMatches ⟨en, some u⟩), ?_, fun h => mem_filter_user reg en u h⟩
    simp [find_and_fire_hook, hauto, resolveFilters, hu]
  · intro h1 h2
    refine ⟨reg.filter (hookMatches ⟨en, some inst.selfId⟩), ?_,
      fun h => mem_filter_user reg en inst.selfId h⟩
    simp [find_and_fire_hook, hauto, resolveFilters, h1, h2]
  · intro h1 h2
    simp [find_and_fire_hook, hauto, resolveFilters, h1, h2]
  · refine ⟨reg.filter (hookMatches ⟨en, none⟩), ?_, fun h => mem_filter_all reg en h⟩
    simp [find_and_fire_hook, hauto, resolveFilters]

/-- Witness for `find_and_fire_owner_selection`: a configured event with
two subscriptions of different owners, selected under the ignore-owner
sentinel. -/
theorem find_and_fire_owner_selection_witness :
    (lookupEvent [(str "e", none)] (str "e")).isSome = true ∧
    (∃ hooks, find_and_fire_hook [(str "e", none)]
        [⟨1, 10, str "e", str "t1"⟩, ⟨2, 20, str "e", str "t2"⟩]
        (str "e") ⟨some 10, false, 0, none, []⟩ .ignoreUser = .ok hooks ∧
      ∀ h, h ∈ hooks ↔
        h ∈ [(⟨1, 10, str "e", str "t1"⟩ : Hook), ⟨2, 20, str "e", str "t2"⟩] ∧
          h.event = str "e") :=
  ⟨by decide,
   (find_and_fire_owner_selection [(str "e", none)]
     [⟨1, 10, str "e", str "t1"⟩, ⟨2, 20, str "e", str "t2"⟩]
     (str "e") ⟨some 10, false, 0, none, []⟩ (by decide)).2.2.2.2⟩

/-- Claim C4: serializer strategy order. `serialize_hook` uses, in order:
a callable `serialize_hook` capability on the instance, used verbatim; the
globally configured serializer called with the instance and the hook; else
the default reflective serializer, whose result is the envelope of the
hook's `dict()` (which is exactly `{ id, event, target }`) over the
instance's persisted fields. -/
theorem serialize_hook_strategy_order (stg : Settings) (self : Hook)
    (inst : TriggerInstance) :
    (∀ f, inst.serializeHookFn = some f → serialize_hook stg self inst = f self) ∧
    (inst.serializeHookFn = none → ∀ g, stg.hookSerializer = some g →
      serialize_hook stg self inst = g inst self) ∧
    (inst.serializeHookFn = none → stg.hookSerializer = none →
      serialize_hook stg self inst = .envelope (Hook.dict self) inst.fields ∧
      Hook.dict self = ⟨self.id, self.event, self.target⟩) := by
  refine ⟨?_, ?_, ?_⟩
  · intro f hf
    simp [serialize_hook, hf]
  · intro h1 g hg
    simp [serialize_hook, h1, hg]
  · intro h1 h2
    exact ⟨by simp [serialize_hook, h1, h2], rfl⟩

/-- Witness for `serialize_hook_strategy_order`: the default path on a
concrete hook and instance. -/
theorem serialize_hook_strategy_order_witness :
    serialize_hook ⟨none⟩ ⟨7, 10, str "e", str "t"⟩
        ⟨some 10, false, 0, none, [(str "f", str "v")]⟩
      = .envelope ⟨7, str "e", str "t"⟩ [(str "f", str "v")] := by
  have h := (serialize_hook_strategy_order ⟨none⟩ ⟨7, 10, str "e", str "t"⟩
    ⟨some 10, false, 0, none, [(str "f", str "v")]⟩).2.2 rfl rfl
  rw [h.1, h.2]

/-- Claim C5: enqueueing N delivery requests into an idle threaded
dispatcher and then draining the queue issues exactly N HTTP attempts;
each enqueued item is executed exactly once (multiplicity preserved, so
with its own target and body), and `total_sent` ends at its initial value
plus N. -/
theorem client_enqueue_drain_exact (c0 : Nat) (items : List Item) :
    (sync_flush (items.foldl Client.enqueue ⟨[], c0⟩)).1.length = items.length ∧
    (∀ it, (sync_flush (items.foldl Client.enqueue ⟨[], c0⟩)).1.count it
      = items.count it) ∧
    (sync_flush (items.foldl Client.enqueue ⟨[], c0⟩)).1.Perm items ∧
    (sync_flush (items.foldl Client.enqueue ⟨[], c0⟩)).2.total_sent
      = c0 + items.length := by
  have hst : items.foldl Client.enqueue ⟨[], c0⟩ = ⟨items, c0⟩ := by
    simpa using enqueue_foldl items ⟨[], c0⟩
  have hs : sync_flush ⟨items, c0⟩ = (items.reverse, ⟨[], c0 + items.length⟩) := by
    simp [sync_flush, syncFlushGo_spec items items.length c0 le_rfl]
  rw [hst, hs]
  exact ⟨by simp, fun it => by simp, List.reverse_perm items, rfl⟩

/-- Claim C8: evaluation of the durable task-queue backend at the failing
input. `DeliverHook.run` given a hook id and an HTTP 410 response is
supposed to delete the originating subscription, but the code accesses the
manager under the attribute name `object`, which is not defined on the
model class (the manager is `objects`), so it raises `AttributeError` and
no subscription is deleted; any non-410 status leaves the registry
unchanged. -/
theorem deliver_task_410_attribute_error (reg : Registry) (hid : Nat) :
    deliver_hook_run 410 (some hid) reg = .error .attributeError ∧
    (∀ s, s ≠ 410 → deliver_hook_run s (some hid) reg = .ok reg) := by
  have hattr : accessedManagerAttr ∉ hookModelAttrs := by decide
  refine ⟨?_, ?_⟩
  · simp [deliver_hook_run, hattr]
  · intro s hs
    simp [deliver_hook_run, hs]

/-- Witness for `deliver_task_410_attribute_error` at a concrete registry
and status codes. -/
theorem deliver_task_410_attribute_error_witness :
    deliver_hook_run 410 (some 1) [⟨1, 10, str "e", str "t"⟩] = .error .attributeError ∧
    (200 : Nat) ≠ 410 ∧
    deliver_hook_run 200 (some 1) [⟨1, 10, str "e", str "t"⟩]
      = .ok [⟨1, 10, str "e", str "t"⟩] :=
  ⟨(deliver_task_410_attribute_error [⟨1, 10, str "e", str "t"⟩] 1).1, by decide,
   (deliver_task_410_attribute_error [⟨1, 10, str "e", str "t"⟩] 1).2 200 (by decide)⟩

/-- Claim C9: `distill_model_event` raises `TypeError` exactly when called
with neither an event name nor both a model and an action; with an event
name, or with both model and action, this error is never raised (other
outcomes, including other errors, are possible). -/
theorem distill_requires_event_or_model_action (he : HookEvents)
    (model action : Option Str) (uo : UserOverride) (eventName : Option Str)
    (trust : Bool) :
    distill_model_event he model action uo eventName trust = .error .typeError ↔
      eventName = none ∧ (model = none ∨ action = none) := by
  cases eventName with
  | none =>
    cases model with
    | none => simp [distill_model_event]
    | some m =>
      cases action with
      | none => simp [distill_model_event]
      | some a =>
        cases hb : get_event_actions_config he with
        | error e =>
          have hne : ¬ e = HookError.typeError := by
            intro h
            exact buildAux_no_typeError (hb.trans (by rw [h]))
          simp [distill_model_event, hb, hne]
        | ok cfg =>
          cases hma : lookupMA cfg m a with
          | none => simp [distill_model_event, hb, hma]
          | some p =>
            obtain ⟨en, ig⟩ := p
            simp [distill_model_event, hb, hma]
  | some en =>
    cases trust with
    | true => simp [distill_model_event]
    | false =>
      cases hle : lookupEvent he en with
      | none => simp [distill_model_event, hle]
      | some auto =>
        cases auto with
        | none => simp [distill_model_event, hle]
        | some d =>
          by_cases hd : d = []
          · simp [distill_model_event, hle, hd]
          · cases hp : parseAuto d with
            | none => simp [distill_model_event, hle, hd, hp]
            | some ad =>
              by_cases hma : model.getD ad.model = ad.model ∧ action.getD ad.action = ad.action
              · simp [distill_model_event, hle, hd, hp, hma]
              · simp [distill_model_event, hle, hd, hp, hma]

/-- Claim C2: descriptor/resolution round trip. If the configuration maps
event name `E` to the automatic descriptor `M.A` (with or without a
trailing `+`, and with `A` containing no `.` or `+` of its own), then
looking up the pair `(M, A)` in the derived index built by
`get_event_actions_config` — the lookup `distill_model_event` performs —
yields exactly `E`, together with the ignore-owner flag of the trailing
`+`. -/
theorem descriptor_roundtrip (he : HookEvents) (cfg : EventActionsConfig)
    (E m a : Str) (plus : Bool)
    (hb : get_event_actions_config he = .ok cfg)
    (hmem : (E, some (m ++ '.' :: (if plus then a ++ ['+'] else a))) ∈ he)
    (hdot : ('.' : Char) ∉ a) (hplus : ('+' : Char) ∉ a) :
    lookupMA cfg m a = some (E, plus) := by
  have hpa := parseAuto_shape m a plus hdot hplus
  have hne : ¬ (m ++ '.' :: (if plus then a ++ ['+'] else a)) = [] := by
    cases m <;> simp
  have hb' : buildConfigAux he [] = .ok cfg := hb
  exact buildAux_roundtrip hb' hmem hne hpa

/-- Witness for `descriptor_roundtrip`: event `p` configured with
descriptor `m.a+` resolves `(m, a)` back to `p` with the ignore-owner
flag. -/
theorem descriptor_roundtrip_witness :
    get_event_actions_config [(str "p", some (str "m.a+"))]
      = .ok [((str "m", str "a"), (str "p", true))] ∧
    lookupMA [((str "m", str "a"), (str "p", true))] (str "m") (str "a")
      = some (str "p", true) :=
  ⟨rfl,
   descriptor_roundtrip [(str "p", some (str "m.a+"))]
     [((str "m", str "a"), (str "p", true))] (str "p") (str "m") (str "a") true
     rfl (by decide) (by decide) (by decide)⟩

/-- Claim C6, counterexample. The claim states that firing with an event
name outside the configured set is a silent no-op on both paths. On the
explicit path this is false: `distill_model_event` leaves an unconfigured
event name untouched and calls the finder, and `find_and_fire_hook`
raises `'"..." does not exist in settings.HOOK_EVENTS'`. Here the
configuration knows only event `a.b`, and an explicit firing of the
unconfigured name `nope` errors instead of no-opping. -/
theorem unknown_event_not_silent_cex :
    distill_and_fire [(str "a.b", some (str "m.x"))] [] ⟨some 1, false, 0, none, []⟩
        none none .noOverride (some (str "nope")) false
      = .error .unknownEvent :=
  rfl

/-- Claim C6, amended: an unconfigured `(model, action)` pair on the
automatic path is a silent no-op (no delivery, no error), but an
unconfigured event name on the explicit path raises the unknown-event
error from `find_and_fire_hook` (whatever the trust flag and overrides). -/
theorem unconfigured_event_behavior (he : HookEvents) (reg : Registry)
    (inst : TriggerInstance) :
    (∀ m a uo cfg, get_event_actions_config he = .ok cfg → lookupMA cfg m a = none →
      distill_and_fire he reg inst (some m) (some a) uo none false = .ok none) ∧
    (∀ en model action uo trust, lookupEvent he en = none →
      distill_and_fire he reg inst model action uo (some en) trust
        = .error .unknownEvent) := by
  refine ⟨?_, ?_⟩
  · intro m a uo cfg hb hma
    simp [distill_and_fire, distill_model_event, hb, hma]
  · intro en model action uo trust hen
    cases trust with
    | true => simp [distill_and_fire, distill_model_event, find_and_fire_hook, hen]
    | false => simp [distill_and_fire, distill_model_event, find_and_fire_hook, hen]

/-- Witness for `unconfigured_event_behavior`: in a configuration knowing
only event `e` with descriptor `m.x`, the automatic path for the
unconfigured pair `(m, zzz)` is a silent no-op, and the explicit path for
the unconfigured name `nosuch` errors. -/
theorem unconfigured_event_behavior_witness :
    get_event_actions_config [(str "e", some (str "m.x"))]
      = .ok [((str "m", str "x"), (str "e", false))] ∧
    lookupMA [((str "m", str "x"), (str "e", false))] (str "m") (str "zzz") = none ∧
    distill_and_fire [(str "e", some (str "m.x"))] [] ⟨some 1, false, 0, none, []⟩
        (some (str "m")) (some (str "zzz")) .noOverride none false = .ok none ∧
    lookupEvent [(str "e", some (str "m.x"))] (str "nosuch") = none ∧
    distill_and_fire [(str "e", some (str "m.x"))] [] ⟨some 1, false, 0, none, []⟩
        none none .noOverride (some (str "nosuch")) false = .error .unknownEvent :=
  ⟨rfl, rfl,
   (unconfigured_event_behavior [(str "e", some (str "m.x"))] []
       ⟨some 1, false, 0, none, []⟩).1
     (str "m") (str "zzz") .noOverride [((str "m", str "x"), (str "e", false))] rfl rfl,
   rfl,
   (unconfigured_event_behavior [(str "e", some (str "m.x"))] []
       ⟨some 1, false, 0, none, []⟩).2
     (str "nosuch") none none .noOverride false rfl⟩

/-- Claim C7: duplicate automatic descriptors. For a well-formed
configuration (every truthy descriptor has the documented
`model.action[+]` shape) with distinct event names, the derived-index
build succeeds exactly when no two descriptors resolve to the same
`(model, action)` pair, and a duplicate pair makes
`get_event_actions_config` raise `ImproperlyConfigured`. -/
theorem duplicate_descriptor_config (he : HookEvents)
    (hwf : wfEvents he = true) :
    ((autoPairs he).Nodup → ∃ cfg, get_event_actions_config he = .ok cfg) ∧
    (¬ (autoPairs he).Nodup →
      get_event_actions_config he = .error .improperlyConfigured) := by
  refine ⟨fun h => ?_, fun h => ?_⟩
  · exact buildAux_ok_of_nodup hwf (by simpa [keysOf] using h)
  · exact buildAux_err_of_dup hwf (by simp [keysOf]) (by simpa [keysOf] using h)

/-- Witness for `duplicate_descriptor_config`: two event names whose
descriptors both resolve to `(m, a)` make the build raise
`ImproperlyConfigured`. -/
theorem duplicate_descriptor_config_witness :
    wfEvents [(str "e", some (str "m.a")), (str "f", some (str "m.a"))] = true ∧
    ¬ (autoPairs [(str "e", some (str "m.a")), (str "f", some (str "m.a"))]).Nodup ∧
    get_event_actions_config [(str "e", some (str "m.a")), (str "f", some (str "m.a"))]
      = .error .improperlyConfigured :=
  ⟨by decide, by decide,
   (duplicate_descriptor_config
       [(str "e", some (str "m.a")), (str "f", some (str "m.a"))]
       (by decide)).2 (by decide)⟩

/-- Claim C10: a `+`-marked descriptor replaces any caller-supplied owner
override. When the derived index resolves `(m, a)` to an event with the
ignore-owner flag, `distill_model_event` passes the ignore-owner sentinel
to the finder even though the caller named an explicit owner, so the
event fans out to all subscriptions of the event regardless of owner. -/
theorem plus_marker_overrides_owner (he : HookEvents) (reg : Registry)
    (inst : TriggerInstance) (m a en : Str) (u : Nat) (trust : Bool)
    (cfg : EventActionsConfig)
    (hb : get_event_actions_config he = .ok cfg)
    (hma : lookupMA cfg m a = some (en, true)) :
    ∃ hooks,
      distill_and_fire he reg inst (some m) (some a) (.explicitUser u) none trust
        = .ok (some hooks) ∧
      ∀ h, h ∈ hooks ↔ h ∈ reg ∧ h.event = en := by
  have hb' : buildConfigAux he [] = .ok cfg := hb
  have hmem := lookupMA_mem hma
  have hsrc := buildAux_src hb' _ hmem
  have hen : (lookupEvent he en).isSome := by
    rcases hsrc with hacc | ⟨v, hv⟩
    · simp at hacc
    · exact lookupEvent_isSome_of_mem hv
  obtain ⟨auto, hauto⟩ := Option.isSome_iff_exists.mp hen
  refine ⟨reg.filter (hookMatches ⟨en, none⟩), ?_, fun h => mem_filter_all reg en h⟩
  simp [distill_and_fire, distill_model_event, hb, hma, find_and_fire_hook, hauto,
    resolveFilters]

/-- Witness for `plus_marker_overrides_owner`: event `p` has descriptor
`m.a+`; a trigger for `(m, a)` naming owner 10 still selects the
subscriptions of both owner 10 and owner 20. -/
theorem plus_marker_overrides_owner_witness :
    get_event_actions_config [(str "p", some (str "m.a+"))]
      = .ok [((str "m", str "a"), (str "p", true))] ∧
    lookupMA [((str "m", str "a"), (str "p", true))] (str "m") (str "a")
      = some (str "p", true) ∧
    (∃ hooks,
      distill_and_fire [(str "p", some (str "m.a+"))]
          [⟨1, 10, str "p", str "t1"⟩, ⟨2, 20, str "p", str "t2"⟩]
          ⟨some 10, false, 0, none, []⟩ (some (str "m")) (some (str "a"))
          (.explicitUser 10) none false
        = .ok (some hooks) ∧
      ∀ h, h ∈ hooks ↔
        h ∈ [(⟨1, 10, str "p", str "t1"⟩ : Hook), ⟨2, 20, str "p", str "t2"⟩] ∧
          h.event = str "p") :=
  ⟨rfl, rfl,
   plus_marker_overrides_owner [(str "p", some (str "m.a+"))]
     [⟨1, 10, str "p", str "t1"⟩, ⟨2, 20, str "p", str "t2"⟩]
     ⟨some 10, false, 0, none, []⟩ (str "m") (str "a") (str "p") 10 false
     [((str "m", str "a"), (str "p", true))] rfl rfl⟩

end RestHooks
